import Mathlib

/-!
# taco: operand collection and the command-line driver

A shallow embedding of `src/src/expr_nodes.cpp` (`getOperands`) and of
`src/tools/taco.cpp` (`main`), together with models of the iteration schedule
and the merge lattice, whose implementation is not part of the sources at hand.

C++ strings are modelled as lists of characters, `std::vector` as `List`,
`std::set` and `std::map` as duplicate-free lists with the standard library's
lookup and insertion semantics.
-/

namespace Taco

/-- A `std::string`: a finite sequence of characters. -/
abbrev Str := List Char

/-! ## Expression IR -/

/-- Modelled from the spec: the `TensorBase` class (`taco/tensor_base.h` is absent).
A tensor value is a shared handle on its content; the handle is the "explicit
stable identifier assigned at tensor creation, compared by value". The name, the
format and the data of a tensor live behind the handle. -/
structure TensorBase where
  content : Nat
deriving DecidableEq, Repr

/-- Modelled from the spec: `operator<` on `TensorBase` (absent), the order that
`std::set<TensorBase>` uses; tensors are ordered by identity, not by name. -/
def TensorBase.lt (l r : TensorBase) : Bool :=
  decide (l.content < r.content)

/-- Modelled from the spec: an `IndexVar` (`taco::Var`, absent), a named symbolic
dimension variable whose identity is its name. -/
structure Var where
  name : Str
deriving DecidableEq, Repr

/-- Modelled from the spec: the expression nodes (`taco/expr_nodes.h` is absent),
"one of {Read(tensor, index-vars), Add(left,right), Mul(left,right),
Neg(operand), Literal(value), …}", a tree whose nodes own their children. -/
inductive Expr where
  | Read (tensor : TensorBase) (indexVars : List Var)
  | Neg (a : Expr)
  | Add (a b : Expr)
  | Mul (a b : Expr)
  | Literal (val : Int)
deriving DecidableEq, Repr

/-- The `std::set<TensorBase>` of `getOperands`, kept as the list of its elements. -/
abbrev TensorSet := List TensorBase

/-- The helper `util::contains(set, v)`, that is `set.find(v) != set.end()`: some
element is equivalent to `v` under the set's order (neither is less than the other). -/
def util.contains (s : TensorSet) (v : TensorBase) : Bool :=
  s.any (fun u => !(TensorBase.lt u v) && !(TensorBase.lt v u))

/-- The member `std::set::insert`: adds the value unless an equivalent element is present. -/
def TensorSet.insert (s : TensorSet) (v : TensorBase) : TensorSet :=
  if util.contains s v then s else s ++ [v]

/-- The local visitor `struct GetOperands` of `getOperands`: its two data members. -/
structure GetOperands where
  inserted : TensorSet
  operands : List TensorBase
deriving DecidableEq, Repr

/-- The override `GetOperands::visit(const Read* node)` (expr_nodes.cpp, lines 15-20). -/
def GetOperands.visitRead (self : GetOperands) (tensor : TensorBase) : GetOperands :=
  if !(util.contains self.inserted tensor) then
    { inserted := self.inserted.insert tensor,
      operands := self.operands ++ [tensor] }
  else
    self

/-- Modelled from the spec: `Expr::accept` with the default `ExprVisitor::visit`
methods (absent), which invoke the handlers "in a fixed traversal order (children
before parent, left before right)". Only the `Read` handler is overridden by
`GetOperands`; the inherited handlers of the other nodes just visit the children. -/
def Expr.accept : Expr → GetOperands → GetOperands
  | .Read tensor _, v => v.visitRead tensor
  | .Neg a, v => a.accept v
  | .Add a b, v => b.accept (a.accept v)
  | .Mul a b, v => b.accept (a.accept v)
  | .Literal _, v => v

/-- The function `getOperands(const taco::Expr& expr)` (expr_nodes.cpp, lines 10-25). -/
def getOperands (expr : Expr) : List TensorBase :=
  (expr.accept { inserted := [], operands := [] }).operands

/-- The tensors of the `Read` nodes of an expression, one entry per `Read` node, in
the order the traversal visits them (left operand before right operand). -/
def readTensors : Expr → List TensorBase
  | .Read tensor _ => [tensor]
  | .Neg a => readTensors a
  | .Add a b => readTensors a ++ readTensors b
  | .Mul a b => readTensors a ++ readTensors b
  | .Literal _ => []

/-- Running the `Read` handler over a sequence of tensors, in order. -/
def visitAll (v : GetOperands) (ts : List TensorBase) : GetOperands :=
  ts.foldl GetOperands.visitRead v

/-- The operands collected by the `Read` handler from a sequence of reads, starting
from a fresh visitor (both members empty). -/
def collect (ts : List TensorBase) : List TensorBase :=
  (visitAll { inserted := [], operands := [] } ts).operands

/-! ## The command-line driver (`tools/taco.cpp`) -/

/-- The enumeration `LevelType` (`taco/format.h` is absent): Dense or Sparse, the two
kinds `main` pushes for the characters `d` and `s`. -/
inductive LevelType where
  | Dense
  | Sparse
deriving DecidableEq, Repr

/-- Modelled from the spec: the `Format` class (`taco/format.h` is absent), built by
`Format(levelTypes, dimensions)`: "an ordered sequence of Levels for one tensor"
plus "the mapping from level position to index-variable dimension". -/
structure Format where
  levelTypes : List LevelType
  dimensionOrder : List Nat
deriving DecidableEq, Repr

/-- The `std::map<string,Format>` of `main`, kept as the list of its entries. -/
abbrev FormatMap := List (Str × Format)

/-- The lookup `std::map::find`: the format stored under a name, if any. -/
def mapFind (m : FormatMap) (key : Str) : Option Format :=
  m.lookup key

/-- The member `std::map::insert`: stores the entry unless the key is already present,
in which case the map is left unchanged. -/
def mapInsert (m : FormatMap) (key : Str) (value : Format) : FormatMap :=
  match mapFind m key with
  | some _ => m
  | none => m ++ [(key, value)]

/-- What `main` writes and which collaborators it calls, in order. -/
inductive Event where
  /-- The call `printUsageInfo()`. -/
  | usage
  /-- The line `cerr << "Error: " << errorMessage << endl << endl` of `reportError`. -/
  | error (errorMessage : Str)
  /-- Construction of `parser::Parser(exprStr, formats)` followed by `parser.parse()`. -/
  | parse (exprStr : Str) (formats : FormatMap)
  /-- The line `cerr << e.getMessage() << endl` of the `catch` block. -/
  | parseError (message : Str)
  /-- The call `tensor.compile()`. -/
  | compile
  /-- The call `tensor.printAssemblyIR(cout,color)`. -/
  | printAssemblyIR (color : Bool)
  /-- The call `tensor.printComputeIR(cout,color)`. -/
  | printComputeIR (color : Bool)
  /-- The separator `cout << endl << endl` between two printed parts. -/
  | separator
  /-- Lines 194-201: the schedule and the merge lattice of the index variable are built
  and the lattice is printed. -/
  | printLattice (indexVarName : Str)
  /-- The final `cout << endl`. -/
  | endl
deriving DecidableEq, Repr

/-- What `main` observes of the external `parser::Parser` (`taco/parser/parser.h` is
absent), as functions of the constructor arguments: the message of the `ParseError`
thrown by `parse()`, if one is thrown, and the answer of `hasIndexVar`. -/
structure Parser where
  parseError : Str → FormatMap → Option Str
  hasIndexVar : Str → FormatMap → Str → Bool

/-- The local variables of `main` that the argument loop reads and writes. -/
structure MainState where
  printCompute : Bool
  printAssemble : Bool
  printLattice : Bool
  evaluate : Bool
  color : Bool
  indexVarName : Str
  exprStr : Str
  formats : FormatMap
deriving DecidableEq, Repr

/-- The initial values of the locals (taco.cpp, lines 97-106). -/
def MainState.init : MainState :=
  { printCompute := false, printAssemble := false, printLattice := false,
    evaluate := false, color := true, indexVarName := [], exprStr := [], formats := [] }

/-- The function `reportError` (taco.cpp, lines 85-89): the output and the returned code. -/
def reportError (errorMessage : Str) (errorCode : Int) : Int × List Event :=
  (errorCode, [Event.error errorMessage, Event.usage])

/-- The loop over `formatString` (taco.cpp, lines 118-131), from position `i` on, with the
rest of the string still to read: `none` is the `default:` branch of the switch. -/
def formatLoop : Str → Nat → List LevelType → List Nat → Option (List LevelType × List Nat)
  | [], _, levelTypes, dimensions => some (levelTypes, dimensions)
  | c :: rest, i, levelTypes, dimensions =>
    if c = 'd' then
      formatLoop rest (i + 1) (levelTypes ++ [LevelType.Dense]) (dimensions ++ [i])
    else if c = 's' then
      formatLoop rest (i + 1) (levelTypes ++ [LevelType.Sparse]) (dimensions ++ [i])
    else
      none

/-- The outcome of one iteration of the argument loop: the loop goes on with new values
of the locals, or `main` returns a code after some output (the locals at that moment
are kept for inspection). -/
inductive Step where
  | next (st : MainState)
  | halt (code : Int) (out : List Event) (st : MainState)
deriving DecidableEq, Repr

/-- The body of the argument loop (taco.cpp, lines 108-153) for one argument.
`split` is `util::split` (`taco/util/strings.h` is absent), `substr(0,n)` is `take n`
and `substr(3,npos)` is `drop 3`. -/
def processArg (split : Str → Str → List Str) (st : MainState) (arg : Str) : Step :=
  if "-f=".toList = arg.take 3 then
    match split (arg.drop 3) ":".toList with
    | [tensorName, formatString] =>
      match formatLoop formatString 0 [] [] with
      | none =>
        Step.halt (reportError "Incorrect format descriptor".toList 3).1
          (reportError "Incorrect format descriptor".toList 3).2 st
      | some (levelTypes, dimensions) =>
        Step.next { st with formats := mapInsert st.formats tensorName ⟨levelTypes, dimensions⟩ }
    | _ =>
      Step.halt (reportError "Incorrect format descriptor".toList 3).1
        (reportError "Incorrect format descriptor".toList 3).2 st
  else if "-c".toList = arg.take 2 then
    Step.next { st with printCompute := true }
  else if "-a".toList = arg.take 2 then
    Step.next { st with printAssemble := true }
  else if "-l=".toList = arg.take 3 then
    Step.next { st with indexVarName := arg.drop 3, printLattice := true }
  else if "-nocolor".toList = arg then
    Step.next { st with color := false }
  else
    if st.exprStr.length ≠ 0 then
      Step.halt 2 [Event.usage] st
    else
      Step.next { st with exprStr := arg }

/-- The argument loop `for (int i = 1; i < argc; i++)` over the remaining arguments. -/
def argLoop (split : Str → Str → List Str) : List Str → MainState → Step
  | [], st => Step.next st
  | arg :: rest, st =>
    match processArg split st arg with
    | Step.next st' => argLoop split rest st'
    | Step.halt code out st' => Step.halt code out st'

/-- Lines 156-159: "Print compute is the default if nothing else was asked for". -/
def applyDefault (st : MainState) : MainState :=
  if !st.printAssemble && !st.printLattice && !st.evaluate then
    { st with printCompute := true }
  else
    st

/-- Lines 161-206 of `main`, after the default has been applied: the exit code and
the output. -/
def runCompiler (parser : Parser) (st : MainState) : Int × List Event :=
  let out := [Event.parse st.exprStr st.formats] ++
    (match parser.parseError st.exprStr st.formats with
     | some message => [Event.parseError message]
     | none => [])
  if st.printLattice && !(parser.hasIndexVar st.exprStr st.formats st.indexVarName) then
    ((reportError "Index variable is not in expression".toList 4).1,
      out ++ (reportError "Index variable is not in expression".toList 4).2)
  else
    let out := out ++ [Event.compile]
    let hasPrinted := false
    let (out, hasPrinted) :=
      if st.printAssemble then (out ++ [Event.printAssemblyIR st.color], true)
      else (out, hasPrinted)
    let (out, hasPrinted) :=
      if st.printCompute then
        ((if hasPrinted then out ++ [Event.separator] else out) ++
          [Event.printComputeIR st.color], true)
      else (out, hasPrinted)
    let out :=
      if st.printLattice then
        (if hasPrinted then out ++ [Event.separator] else out) ++
          [Event.printLattice st.indexVarName]
      else out
    (0, out ++ [Event.endl])

/-- The function `main` (taco.cpp, lines 91-207): `argv` is the whole argument vector,
program name included, and `argc` is its length. -/
def main (split : Str → Str → List Str) (parser : Parser) (argv : List Str) :
    Int × List Event :=
  if argv.length < 2 then
    (1, [Event.usage])
  else
    match argLoop split (argv.drop 1) MainState.init with
    | Step.halt code out _ => (code, out)
    | Step.next st => runCompiler parser (applyDefault st)

/-- The level type `main` pushes for a format character: Dense for `d`, Sparse otherwise
(applied to `s` only). -/
def levelTypeOf (c : Char) : LevelType :=
  if c = 'd' then LevelType.Dense else LevelType.Sparse

/-- One behaviour `util::split` may have, used to run `main` on concrete arguments:
the string is cut at every occurrence of the delimiter and empty pieces are dropped.
`skip` counts the characters of a delimiter still to pass over, `cur` is the piece
being read. -/
def splitFrom (delim : Str) : Str → Nat → Str → List Str
  | [], _, cur => if cur = [] then [] else [cur]
  | _ :: rest, skip + 1, cur => splitFrom delim rest skip cur
  | c :: rest, 0, cur =>
    if delim ≠ [] ∧ delim.isPrefixOf (c :: rest) then
      (if cur = [] then [] else [cur]) ++ splitFrom delim rest (delim.length - 1) []
    else
      splitFrom delim rest 0 (cur ++ [c])

/-- A sample `util::split(str, delim)`. -/
def sampleSplit (str delim : Str) : List Str :=
  splitFrom delim str 0 []

/-- A sample parser: every expression parses and has exactly the index variable `i`. -/
def sampleParser : Parser :=
  { parseError := fun _ _ => none,
    hasIndexVar := fun _ _ name => decide (name = "i".toList) }

/-! ## Iteration schedule and merge lattice

`lower::IterationSchedule::make` and `lower::MergeLattice::make`, which `main` calls on
lines 195-200, are not among the sources; the definitions below follow the design
given for them (sections 4.4 and 4.5 of the specification). -/

/-- The `Read` nodes of an expression with their access lists, in traversal order. -/
def reads : Expr → List (TensorBase × List Var)
  | .Read tensor indexVars => [(tensor, indexVars)]
  | .Neg a => reads a
  | .Add a b => reads a ++ reads b
  | .Mul a b => reads a ++ reads b
  | .Literal _ => []

/-- The elements of a list, each kept at its first occurrence. -/
def distinct {α : Type} [DecidableEq α] : List α → List α
  | [] => []
  | x :: xs => x :: (distinct xs).filter (fun y => decide (y ≠ x))

/-- Modelled from the spec: the IndexVars of a tensor access in the order of the tensor's
levels (missing: the Format-to-IndexVar mapping of `IterationSchedule`): the level at
position `p` stores dimension `dimensionOrder[p]`, which the access names
`indexVars[dimensionOrder[p]]`. -/
def levelVars (f : Format) (indexVars : List Var) : List Var :=
  f.dimensionOrder.filterMap (fun d => indexVars[d]?)

/-- All ordered pairs `(l[i], l[j])` with `i < j`. -/
def orderedPairs : List Var → List (Var × Var)
  | [] => []
  | v :: vs => vs.map (fun w => (v, w)) ++ orderedPairs vs

/-- Modelled from the spec: step 1 of the schedule algorithm (missing:
`IterationSchedule::make`), "for every tensor operand, the partial order its Format
imposes among the IndexVars it uses (level i before level j ⇒ that tensor's IndexVar
at i before the one at j)", as the union of the "before" edges of all operands. -/
def beforeEdges (formatOf : TensorBase → Format) (e : Expr) : List (Var × Var) :=
  (reads e).flatMap (fun r => orderedPairs (levelVars (formatOf r.1) r.2))

/-- Modelled from the spec: step 1 of the schedule algorithm (missing:
`IterationSchedule::make`), "collect all distinct IndexVars used", in first-occurrence
order in the expression. -/
def indexVarsOf (e : Expr) : List Var :=
  distinct ((reads e).flatMap (fun r => r.2))

/-- Whether some variable still to be placed must come before `v`. -/
def hasPredecessor (edges : List (Var × Var)) (remaining : List Var) (v : Var) : Bool :=
  remaining.any (fun u => decide ((u, v) ∈ edges))

/-- Modelled from the spec: steps 2 and 3 of the schedule algorithm (missing:
`IterationSchedule::make`), "topological ordering over the union of before edges", ties
"broken by first-occurrence order": the next variable is the first remaining one with
no remaining predecessor; when there is none the merged order has a cycle and the
construction fails (`none`; the text of the failure report is not modelled). The
first argument bounds the number of rounds and is the number of variables, which is
always enough (`topoSort_none_cycle`). -/
def topoSort (edges : List (Var × Var)) : Nat → List Var → Option (List Var)
  | _, [] => some []
  | 0, _ :: _ => none
  | n + 1, v0 :: rest =>
    match (v0 :: rest).find? (fun v => !(hasPredecessor edges (v0 :: rest) v)) with
    | none => none
    | some v => (topoSort edges n ((v0 :: rest).erase v)).map (fun order => v :: order)

/-- Modelled from the spec: an Iterator (`lower/iterators.h` is absent), "bound to exactly
one (tensor, Level) pair"; `kind` is the kind of that level. -/
structure Iterator where
  tensor : TensorBase
  level : Nat
  kind : LevelType
deriving DecidableEq, Repr

/-- Modelled from the spec: step 4 of the schedule algorithm (missing:
`IterationSchedule::make`), "bind the tensor's Level at the ordinal matching that
IndexVar's position within the tensor's own dimension list, producing its Iterator". -/
def bindIterator (formatOf : TensorBase → Format) (tensor : TensorBase)
    (indexVars : List Var) (v : Var) : Option Iterator :=
  let level := (formatOf tensor).dimensionOrder.indexOf (indexVars.indexOf v)
  ((formatOf tensor).levelTypes[level]?).map (fun kind => ⟨tensor, level, kind⟩)

/-- Modelled from the spec: the IterationSchedule (`lower/iteration_schedule.h` is
absent), "a total order over the distinct IndexVars of one expression, plus, for every
(tensor, IndexVar) pair actually used, the resolved Iterator". -/
structure IterationSchedule where
  order : List Var
  bindings : List ((TensorBase × Var) × Iterator)
deriving DecidableEq, Repr

/-- Modelled from the spec: the binding table of step 4 (missing:
`IterationSchedule::make`), one entry per (tensor, IndexVar) pair of the expression. -/
def bindingsOf (formatOf : TensorBase → Format) (e : Expr) :
    List ((TensorBase × Var) × Iterator) :=
  (reads e).flatMap (fun r =>
    r.2.filterMap (fun v => (bindIterator formatOf r.1 r.2 v).map (fun it => ((r.1, v), it))))

/-- Modelled from the spec: `IterationSchedule::make` (`lower/iteration_schedule.cpp` is
absent), steps 1 to 4 of section 4.4; `none` is the unsatisfiable-schedule failure. -/
def IterationSchedule.make (formatOf : TensorBase → Format) (e : Expr) :
    Option IterationSchedule :=
  (topoSort (beforeEdges formatOf e) (indexVarsOf e).length (indexVarsOf e)).map
    (fun order => { order := order, bindings := bindingsOf formatOf e })

/-- Modelled from the spec: `IterationSchedule.iteratorFor(tensor, indexVar)` (absent). -/
def IterationSchedule.iteratorFor (s : IterationSchedule) (tensor : TensorBase) (v : Var) :
    Option Iterator :=
  s.bindings.lookup (tensor, v)

/-- Modelled from the spec: a LatticePoint (`lower/merge_lattice.h` is absent), a "subset of
the Iterators active at that IndexVar together with the sub-expression obtained by
restricting the full expression"; `none` stands for the "literal-zero/empty term".
Dense iterators stay in the subset: step 3 never removes them. -/
structure LatticePoint where
  iterators : List Iterator
  expr : Option Expr
deriving DecidableEq, Repr

/-- Modelled from the spec: the input of the merge lattice (missing: `MergeLattice::make`),
"the sub-expression of the overall Expr restricted to operands that mention this
IndexVar"; `none` when no operand mentions it. -/
def restrictTo (v : Var) : Expr → Option Expr
  | .Read tensor indexVars => if v ∈ indexVars then some (.Read tensor indexVars) else none
  | .Neg a => (restrictTo v a).map Expr.Neg
  | .Add a b =>
    match restrictTo v a, restrictTo v b with
    | some a', some b' => some (.Add a' b')
    | some a', none => some a'
    | none, some b' => some b'
    | none, none => none
  | .Mul a b =>
    match restrictTo v a, restrictTo v b with
    | some a', some b' => some (.Mul a' b')
    | some a', none => some a'
    | none, some b' => some b'
    | none, none => none
  | .Literal _ => none

/-- Modelled from the spec: the simplification of step 3 (missing: `MergeLattice::make`),
the operand of the removed iterator is absent: "removing an iterator that is a
multiplicand collapses the whole product term to contribute nothing (the term is
dropped, not evaluated), while removing an iterator that is an addend leaves the
remaining addends intact". -/
def dropIterator (it : Iterator) : Expr → Option Expr
  | .Read tensor indexVars => if tensor = it.tensor then none else some (.Read tensor indexVars)
  | .Neg a => (dropIterator it a).map Expr.Neg
  | .Add a b =>
    match dropIterator it a, dropIterator it b with
    | some a', some b' => some (.Add a' b')
    | some a', none => some a'
    | none, some b' => some b'
    | none, none => none
  | .Mul a b =>
    match dropIterator it a, dropIterator it b with
    | some a', some b' => some (.Mul a' b')
    | _, _ => none
  | .Literal val => some (.Literal val)

/-- Modelled from the spec: the child points of step 3 (missing: `MergeLattice::make`),
"for each active Sparse Iterator in a point, producing a point with that iterator
removed and the paired sub-expression re-evaluated"; Dense iterators are never removed. -/
def children (p : LatticePoint) : List LatticePoint :=
  (p.iterators.filter (fun it => decide (it.kind = LevelType.Sparse))).map
    (fun it => { iterators := p.iterators.erase it, expr := p.expr.bind (dropIterator it) })

/-- Modelled from the spec: the recursion of step 3 (missing: `MergeLattice::make`), a
point followed by the points generated from its children; the first argument bounds
the depth and is the number of iterators of the point. -/
def descend : Nat → LatticePoint → List LatticePoint
  | 0, p => [p]
  | n + 1, p => p :: (children p).flatMap (descend n)

/-- Modelled from the spec: the first half of step 4 (missing: `MergeLattice::make`),
"deduplicate lattice points with identical simplified sub-expressions"; the first
point of each group is kept. -/
def dedupPoints : List LatticePoint → List LatticePoint
  | [] => []
  | p :: ps => p :: (dedupPoints ps).filter (fun q => decide (q.expr ≠ p.expr))

/-- Lexicographic comparison of two position lists. -/
def lexLe : List Nat → List Nat → Bool
  | [], _ => true
  | _ :: _, [] => false
  | x :: xs, y :: ys => decide (x < y) || (decide (x = y) && lexLe xs ys)

/-- Modelled from the spec: the order of step 5 (missing: `MergeLattice::make`), "from most
specific (most iterators) to least specific". The design leaves the order of two
equally specific points open; they are kept in first-occurrence order of their
iterators among the active ones, the order in which the lattice examples of the
specification list them. -/
def moreSpecific (active : List Iterator) (p q : LatticePoint) : Bool :=
  decide (q.iterators.length < p.iterators.length) ||
    (decide (p.iterators.length = q.iterators.length) &&
      lexLe (p.iterators.map (fun it => active.indexOf it))
        (q.iterators.map (fun it => active.indexOf it)))

/-- Insertion of a point into a list ordered by `moreSpecific`. -/
def insertPoint (active : List Iterator) (p : LatticePoint) : List LatticePoint → List LatticePoint
  | [] => [p]
  | q :: qs => if moreSpecific active p q then p :: q :: qs else q :: insertPoint active p qs

/-- Modelled from the spec: step 5 (missing: `MergeLattice::make`), ordering the surviving
points by insertion. -/
def orderPoints (active : List Iterator) : List LatticePoint → List LatticePoint
  | [] => []
  | p :: ps => insertPoint active p (orderPoints active ps)

/-- Modelled from the spec: `MergeLattice::make(expr, indexVar, schedule)`
(`lower/merge_lattice.cpp` is absent), steps 1 to 5 of section 4.5: the active
iterators, the full point, the child points, deduplication and the discarding of
points whose sub-expression is the zero term, and the order from most to least
specific. `none` is the construction error of an IndexVar with no active iterator. -/
def MergeLattice.make (e : Expr) (indexVar : Var) (schedule : IterationSchedule) :
    Option (List LatticePoint) :=
  match restrictTo indexVar e with
  | none => none
  | some sub =>
    let active := distinct ((reads sub).filterMap
      (fun r => schedule.iteratorFor r.1 indexVar))
    if active = [] then none
    else
      let full : LatticePoint := { iterators := active, expr := some sub }
      let points := dedupPoints (descend active.length full)
      let surviving := points.filter (fun p => p.expr.isSome && !p.iterators.isEmpty)
      some (orderPoints active surviving)

/-! ### Lemmas on operand collection -/

theorem util_contains_iff (s : TensorSet) (v : TensorBase) :
    util.contains s v = true ↔ v ∈ s := by
  unfold util.contains TensorBase.lt
  rw [List.any_eq_true]
  constructor
  · rintro ⟨u, hu, h⟩
    have huv : u.content = v.content := by
      simp only [Bool.and_eq_true, Bool.not_eq_true', decide_eq_false_iff_not] at h
      omega
    have : u = v := by
      cases u; cases v; simp_all
    exact this ▸ hu
  · intro h
    exact ⟨v, h, by simp⟩

theorem accept_eq_visitAll (e : Expr) (v : GetOperands) :
    e.accept v = visitAll v (readTensors e) := by
  induction e generalizing v with
  | Read t vars => simp [Expr.accept, readTensors, visitAll]
  | Neg a iha => simpa [Expr.accept, readTensors] using iha v
  | Add a b iha ihb =>
    simp only [Expr.accept, readTensors, visitAll, List.foldl_append] at *
    rw [iha, ihb]
  | Mul a b iha ihb =>
    simp only [Expr.accept, readTensors, visitAll, List.foldl_append] at *
    rw [iha, ihb]
  | Literal val => simp [Expr.accept, readTensors, visitAll]

theorem visitRead_operands (v : GetOperands) (t : TensorBase)
    (hv : v.inserted = v.operands) :
    (v.visitRead t).inserted = (v.visitRead t).operands ∧
      (v.visitRead t).operands = if t ∈ v.operands then v.operands else v.operands ++ [t] := by
  unfold GetOperands.visitRead TensorSet.insert
  rw [hv]
  by_cases h : t ∈ v.operands
  · have hc : util.contains v.operands t = true := (util_contains_iff _ _).2 h
    simp [hc, h, hv]
  · have hc : util.contains v.operands t = false := by
      rw [Bool.eq_false_iff]
      intro hc'
      exact h ((util_contains_iff _ _).1 hc')
    simp [hc, h]

theorem visitAll_snoc (v : GetOperands) (ts : List TensorBase) (t : TensorBase) :
    visitAll v (ts ++ [t]) = (visitAll v ts).visitRead t := by
  simp [visitAll, List.foldl_append]

theorem visitAll_inserted (ts : List TensorBase) :
    (visitAll { inserted := [], operands := [] } ts).inserted = collect ts := by
  induction ts using List.reverseRecOn with
  | nil => rfl
  | append_singleton ts t ih =>
    unfold collect at *
    rw [visitAll_snoc]
    exact (visitRead_operands _ t ih).1

theorem collect_nil : collect [] = [] := rfl

theorem collect_snoc (ts : List TensorBase) (t : TensorBase) :
    collect (ts ++ [t]) = if t ∈ collect ts then collect ts else collect ts ++ [t] := by
  have h := (visitRead_operands _ t (visitAll_inserted ts)).2
  unfold collect at *
  rw [visitAll_snoc]
  exact h

theorem getOperands_eq_collect (e : Expr) : getOperands e = collect (readTensors e) := by
  unfold getOperands collect
  rw [accept_eq_visitAll]

theorem collect_mem (ts : List TensorBase) : ∀ t, t ∈ collect ts ↔ t ∈ ts := by
  induction ts using List.reverseRecOn with
  | nil => simp [collect_nil]
  | append_singleton ts x ih =>
    intro t
    rw [collect_snoc]
    by_cases hx : x ∈ collect ts
    · rw [if_pos hx, List.mem_append, List.mem_singleton, ih]
      constructor
      · exact Or.inl
      · rintro (h | h)
        · exact h
        · rw [h]; exact (ih x).1 hx
    · rw [if_neg hx, List.mem_append, List.mem_append, ih]

theorem collect_nodup (ts : List TensorBase) : (collect ts).Nodup := by
  induction ts using List.reverseRecOn with
  | nil => simp [collect_nil]
  | append_singleton ts x ih =>
    rw [collect_snoc]
    by_cases hx : x ∈ collect ts
    · rw [if_pos hx]; exact ih
    · rw [if_neg hx]
      exact List.Nodup.append ih (List.nodup_singleton x) (by simpa using hx)

theorem collect_indexOf (ts : List TensorBase) :
    ∀ s t, s ∈ ts → t ∈ ts →
      (List.indexOf s (collect ts) < List.indexOf t (collect ts) ↔
        List.indexOf s ts < List.indexOf t ts) := by
  induction ts using List.reverseRecOn with
  | nil => intro s t hs; simp at hs
  | append_singleton ts x ih =>
    intro s t hs ht
    have hsub : ∀ u, u ∈ collect ts → List.indexOf u (collect (ts ++ [x])) =
        List.indexOf u (collect ts) := by
      intro u hu
      rw [collect_snoc]
      by_cases hx : x ∈ collect ts
      · rw [if_pos hx]
      · rw [if_neg hx, List.indexOf_append_of_mem hu]
    have hnew : ∀ u, u ∈ ts ++ [x] → u ∉ ts →
        List.indexOf u (collect (ts ++ [x])) = (collect ts).length ∧
          List.indexOf u (ts ++ [x]) = ts.length := by
      intro u hu hnu
      have hux : u = x := by
        rcases List.mem_append.1 hu with h | h
        · exact absurd h hnu
        · exact List.mem_singleton.1 h
      subst hux
      have hnc : u ∉ collect ts := fun h => hnu ((collect_mem ts u).1 h)
      rw [collect_snoc, if_neg hnc, List.indexOf_append_of_not_mem hnc,
        List.indexOf_append_of_not_mem hnu]
      simp
    by_cases hs' : s ∈ ts <;> by_cases ht' : t ∈ ts
    · rw [hsub s ((collect_mem ts s).2 hs'), hsub t ((collect_mem ts t).2 ht'),
        List.indexOf_append_of_mem hs', List.indexOf_append_of_mem ht']
      exact ih s t hs' ht'
    · obtain ⟨h1, h2⟩ := hnew t ht ht'
      rw [hsub s ((collect_mem ts s).2 hs'), h1, List.indexOf_append_of_mem hs', h2]
      have a1 := List.indexOf_lt_length.2 ((collect_mem ts s).2 hs')
      have a2 := List.indexOf_lt_length.2 hs'
      exact ⟨fun _ => a2, fun _ => a1⟩
    · obtain ⟨h1, h2⟩ := hnew s hs hs'
      rw [hsub t ((collect_mem ts t).2 ht'), h1, List.indexOf_append_of_mem ht', h2]
      have a1 := List.indexOf_lt_length.2 ((collect_mem ts t).2 ht')
      have a2 := List.indexOf_lt_length.2 ht'
      constructor <;> intro h <;> omega
    · obtain ⟨h1, h2⟩ := hnew s hs hs'
      obtain ⟨h3, h4⟩ := hnew t ht ht'
      rw [h1, h2, h3, h4]
      constructor <;> intro h <;> omega


/-! ### Lemmas on the argument loop -/

theorem formatLoop_ok (fmt : Str) : ∀ (i : Nat) (levelTypes : List LevelType) (dimensions : List Nat),
    (∀ c ∈ fmt, c = 'd' ∨ c = 's') →
    formatLoop fmt i levelTypes dimensions =
      some (levelTypes ++ fmt.map levelTypeOf, dimensions ++ List.range' i fmt.length) := by
  induction fmt with
  | nil => intro i lt dims _; simp [formatLoop]
  | cons c rest ih =>
    intro i lt dims h
    have hrest : ∀ c ∈ rest, c = 'd' ∨ c = 's' := fun x hx => h x (List.mem_cons_of_mem _ hx)
    rcases h c (List.mem_cons_self _ _) with hc | hc
    · subst hc
      simp [formatLoop, ih _ _ _ hrest, levelTypeOf, List.range'_succ]
    · subst hc
      simp [formatLoop, ih _ _ _ hrest, levelTypeOf, List.range'_succ]

theorem formatLoop_bad (fmt : Str) : ∀ (i : Nat) (levelTypes : List LevelType) (dimensions : List Nat),
    (∃ c ∈ fmt, c ≠ 'd' ∧ c ≠ 's') → formatLoop fmt i levelTypes dimensions = none := by
  induction fmt with
  | nil => intro i lt dims h; simp at h
  | cons c rest ih =>
    intro i lt dims h
    obtain ⟨x, hx, hxd, hxs⟩ := h
    rcases List.mem_cons.1 hx with hxc | hxr
    · subst hxc
      simp [formatLoop, hxd, hxs]
    · have := fun j l d => ih j l d ⟨x, hxr, hxd, hxs⟩
      unfold formatLoop
      split_ifs <;> simp [this]

theorem argLoop_append (split : Str → Str → List Str) (pre post : List Str) :
    ∀ (st0 st : MainState), argLoop split pre st0 = Step.next st →
      argLoop split (pre ++ post) st0 = argLoop split post st := by
  induction pre with
  | nil => intro st0 st h; simp [argLoop] at h; subst h; rfl
  | cons a pre ih =>
    intro st0 st h
    simp only [argLoop, List.cons_append] at h ⊢
    cases hp : processArg split st0 a with
    | next st1 => rw [hp] at h; simp only; exact ih st1 st h
    | halt c o s => rw [hp] at h; simp at h

theorem mapFind_mapInsert_self (m : FormatMap) (key : Str) (value : Format)
    (h : mapFind m key = none) : mapFind (mapInsert m key value) key = some value := by
  unfold mapInsert
  rw [h]
  unfold mapFind at *
  induction m with
  | nil => simp [List.lookup]
  | cons p m ih =>
    obtain ⟨k, v⟩ := p
    simp only [List.cons_append, List.lookup] at h ⊢
    cases hk : (key == k) with
    | true => rw [hk] at h; simp at h
    | false => rw [hk] at h; simp only; exact ih h

theorem mapFind_mapInsert_of_some (m : FormatMap) (key key' : Str) (value f : Format)
    (h : mapFind m key' = some f) : mapFind (mapInsert m key value) key' = some f := by
  unfold mapInsert
  cases hk : mapFind m key with
  | some g => exact h
  | none =>
    simp only
    unfold mapFind at *
    clear hk
    induction m with
    | nil => simp [List.lookup] at h
    | cons p m ih =>
      obtain ⟨k, v⟩ := p
      simp only [List.cons_append, List.lookup] at h ⊢
      cases hk : (key' == k) with
      | true => rw [hk] at h; exact h
      | false => rw [hk] at h; simp only; exact ih h

theorem processArg_keeps (split : Str → Str → List Str) (st st' : MainState) (arg : Str)
    (h : processArg split st arg = Step.next st') (key : Str) (f : Format)
    (hf : mapFind st.formats key = some f) : mapFind st'.formats key = some f := by
  unfold processArg at h
  split at h
  · split at h
    · split at h
      · simp at h
      · simp only [Step.next.injEq] at h
        subst h
        exact mapFind_mapInsert_of_some _ _ _ _ _ hf
    · simp at h
  · split_ifs at h <;> (simp only [Step.next.injEq] at h; subst h; exact hf)

theorem argLoop_keeps (split : Str → Str → List Str) (args : List Str) (key : Str) (f : Format) :
    ∀ (st st' : MainState), argLoop split args st = Step.next st' →
      mapFind st.formats key = some f → mapFind st'.formats key = some f := by
  induction args with
  | nil => intro st st' h hf; simp [argLoop] at h; subst h; exact hf
  | cons a args ih =>
    intro st st' h hf
    simp only [argLoop] at h
    cases hp : processArg split st a with
    | next st1 =>
      rw [hp] at h
      exact ih st1 st' h (processArg_keeps split st st1 a hp key f hf)
    | halt c o s => rw [hp] at h; simp at h

theorem take_two_of_take_three (a x : Str) (h : x = a.take 3) : a.take 2 = x.take 2 := by
  rw [h, List.take_take]
  rfl

theorem processArg_flags (split : Str → Str → List Str) (st st' : MainState) (arg : Str)
    (h : processArg split st arg = Step.next st') :
    st'.printCompute = (st.printCompute || decide (arg.take 2 = "-c".toList)) ∧
    st'.printAssemble = (st.printAssemble || decide (arg.take 2 = "-a".toList)) ∧
    st'.printLattice = (st.printLattice || decide (arg.take 3 = "-l=".toList)) ∧
    st'.evaluate = st.evaluate := by
  have lit2c : "-c".toList = ['-', 'c'] := rfl
  have lit2a : "-a".toList = ['-', 'a'] := rfl
  have lit3l : "-l=".toList = ['-', 'l', '='] := rfl
  have lit3f : "-f=".toList = ['-', 'f', '='] := rfl
  rw [lit2c, lit2a, lit3l]
  unfold processArg at h
  rw [lit2c, lit2a, lit3l, lit3f] at h
  by_cases hF : ['-', 'f', '='] = arg.take 3
  · have e2 : arg.take 2 = ['-', 'f'] := take_two_of_take_three arg _ hF
    rw [if_pos hF] at h
    have key : st'.printCompute = st.printCompute ∧ st'.printAssemble = st.printAssemble ∧
        st'.printLattice = st.printLattice ∧ st'.evaluate = st.evaluate := by
      split at h
      · split at h
        · simp at h
        · simp only [Step.next.injEq] at h
          subst h
          simp
      · simp at h
    obtain ⟨k1, k2, k3, k4⟩ := key
    rw [e2, ← hF, k1, k2, k3, k4]
    simp
  · rw [if_neg hF] at h
    by_cases hC : ['-', 'c'] = arg.take 2
    · rw [if_pos hC] at h
      simp only [Step.next.injEq] at h
      subst h
      have e3 : arg.take 3 ≠ ['-', 'l', '='] := by
        intro hL
        have := take_two_of_take_three arg _ hL.symm
        rw [← hC] at this
        revert this
        decide
      rw [← hC]
      simp [e3]
    · rw [if_neg hC] at h
      have nC : ¬ arg.take 2 = ['-', 'c'] := fun x => hC x.symm
      by_cases hA : ['-', 'a'] = arg.take 2
      · rw [if_pos hA] at h
        simp only [Step.next.injEq] at h
        subst h
        have e3 : arg.take 3 ≠ ['-', 'l', '='] := by
          intro hL
          have := take_two_of_take_three arg _ hL.symm
          rw [← hA] at this
          revert this
          decide
        rw [← hA]
        simp [e3]
      · rw [if_neg hA] at h
        have nA : ¬ arg.take 2 = ['-', 'a'] := fun x => hA x.symm
        by_cases hL : ['-', 'l', '='] = arg.take 3
        · rw [if_pos hL] at h
          simp only [Step.next.injEq] at h
          subst h
          simp [nC, nA, hL.symm]
        · rw [if_neg hL] at h
          have nL : ¬ arg.take 3 = ['-', 'l', '='] := fun x => hL x.symm
          split_ifs at h <;> (simp only [Step.next.injEq] at h; subst h; simp [nC, nA, nL])

theorem argLoop_flags (split : Str → Str → List Str) (args : List Str) :
    ∀ (st st' : MainState), argLoop split args st = Step.next st' →
      st'.printCompute = (st.printCompute || args.any (fun a => decide (a.take 2 = "-c".toList))) ∧
      st'.printAssemble = (st.printAssemble || args.any (fun a => decide (a.take 2 = "-a".toList))) ∧
      st'.printLattice = (st.printLattice || args.any (fun a => decide (a.take 3 = "-l=".toList))) ∧
      st'.evaluate = st.evaluate := by
  induction args with
  | nil => intro st st' h; simp [argLoop] at h; subst h; simp
  | cons a args ih =>
    intro st st' h
    simp only [argLoop] at h
    cases hp : processArg split st a with
    | next st1 =>
      rw [hp] at h
      obtain ⟨p1, p2, p3, p4⟩ := processArg_flags split st st1 a hp
      obtain ⟨q1, q2, q3, q4⟩ := ih st1 st' h
      rw [q1, q2, q3, q4, p1, p2, p3, p4]
      simp [Bool.or_assoc]
    | halt c o s => rw [hp] at h; simp at h

theorem runCompiler_printCompute (parser : Parser) (st : MainState)
    (h : (runCompiler parser st).1 = 0) :
    (∃ color, Event.printComputeIR color ∈ (runCompiler parser st).2) ↔
      st.printCompute = true := by
  unfold runCompiler reportError at *
  by_cases hl : (st.printLattice && !(parser.hasIndexVar st.exprStr st.formats st.indexVarName)) = true
  · simp [hl] at h
  · simp only [hl, if_false, Bool.false_eq_true]
    cases hA : st.printAssemble <;> cases hC : st.printCompute <;> cases hL : st.printLattice <;>
      cases hP : parser.parseError st.exprStr st.formats <;> simp

theorem main_eq_runCompiler (split : Str → Str → List Str) (parser : Parser) (prog : Str)
    (args : List Str) (st : MainState) (hne : args ≠ [])
    (h : argLoop split args MainState.init = Step.next st) :
    main split parser (prog :: args) = runCompiler parser (applyDefault st) := by
  unfold main
  have hlen : ¬ (prog :: args).length < 2 := by
    cases args with
    | nil => exact absurd rfl hne
    | cons a as => simp
  rw [if_neg hlen]
  simp only [List.drop_succ_cons, List.drop_zero, h]

theorem applyDefault_printCompute (st : MainState) :
    (applyDefault st).printCompute =
      (st.printCompute || (!st.printAssemble && !st.printLattice && !st.evaluate)) := by
  obtain ⟨pc, pa, pl, ev, co, iv, ex, fm⟩ := st
  unfold applyDefault
  cases pc <;> cases pa <;> cases pl <;> cases ev <;> rfl

/-! ## Claims -/

/-- C1: for every expression tree, `getOperands` returns the tensors of the tree's
`Read` nodes in first-occurrence order of the traversal: the result has no tensor
twice, holds exactly the tensors read somewhere in the expression, and a tensor `s`
precedes a tensor `t` in the result exactly when the first `Read` of `s` is visited
before the first `Read` of `t`. -/
theorem getOperands_first_occurrence_order (e : Expr) :
    (getOperands e).Nodup ∧
    (∀ t, t ∈ getOperands e ↔ t ∈ readTensors e) ∧
    (∀ s t, s ∈ readTensors e → t ∈ readTensors e →
      (List.indexOf s (getOperands e) < List.indexOf t (getOperands e) ↔
        List.indexOf s (readTensors e) < List.indexOf t (readTensors e))) := by
  rw [getOperands_eq_collect]
  exact ⟨collect_nodup _, collect_mem _, collect_indexOf _⟩

/-- The expression `b(i) + c(i) * b(i)` reads `b`, `c`, `b`: the operands are `b`, `c`. -/
theorem getOperands_first_occurrence_order_witness :
    ((List.indexOf (TensorBase.mk 1)
        (getOperands (Expr.Add (Expr.Read ⟨1⟩ [⟨['i']⟩])
          (Expr.Mul (Expr.Read ⟨2⟩ [⟨['i']⟩]) (Expr.Read ⟨1⟩ [⟨['i']⟩])))) <
      List.indexOf (TensorBase.mk 2)
        (getOperands (Expr.Add (Expr.Read ⟨1⟩ [⟨['i']⟩])
          (Expr.Mul (Expr.Read ⟨2⟩ [⟨['i']⟩]) (Expr.Read ⟨1⟩ [⟨['i']⟩]))))) ↔
      List.indexOf (TensorBase.mk 1)
        (readTensors (Expr.Add (Expr.Read ⟨1⟩ [⟨['i']⟩])
          (Expr.Mul (Expr.Read ⟨2⟩ [⟨['i']⟩]) (Expr.Read ⟨1⟩ [⟨['i']⟩])))) <
      List.indexOf (TensorBase.mk 2)
        (readTensors (Expr.Add (Expr.Read ⟨1⟩ [⟨['i']⟩])
          (Expr.Mul (Expr.Read ⟨2⟩ [⟨['i']⟩]) (Expr.Read ⟨1⟩ [⟨['i']⟩]))))) ∧
    getOperands (Expr.Add (Expr.Read ⟨1⟩ [⟨['i']⟩])
      (Expr.Mul (Expr.Read ⟨2⟩ [⟨['i']⟩]) (Expr.Read ⟨1⟩ [⟨['i']⟩]))) = [⟨1⟩, ⟨2⟩] :=
  ⟨(getOperands_first_occurrence_order _).2.2 ⟨1⟩ ⟨2⟩ (by decide) (by decide), by decide⟩

/-- C5: `getOperands` deduplicates by tensor identity and not by name: whatever names
the tensors carry, two distinct tensors with the same name that an expression reads
are both in the result, and a tensor that the expression reads, however many times,
is in the result once. -/
theorem getOperands_dedup_by_identity (getName : TensorBase → Str) (e : Expr) :
    (∀ s t, s ∈ readTensors e → t ∈ readTensors e → s ≠ t → getName s = getName t →
      s ∈ getOperands e ∧ t ∈ getOperands e) ∧
    (∀ t, t ∈ readTensors e → (getOperands e).count t = 1) := by
  rw [getOperands_eq_collect]
  refine ⟨fun s t hs ht _ _ => ⟨(collect_mem _ s).2 hs, (collect_mem _ t).2 ht⟩, ?_⟩
  intro t ht
  exact List.count_eq_one_of_mem (collect_nodup _) ((collect_mem _ t).2 ht)

/-- Two distinct tensors both named `a`, the first read twice: both are operands, the
first one once. -/
theorem getOperands_dedup_by_identity_witness :
    (TensorBase.mk 1 ∈ getOperands (Expr.Add (Expr.Read ⟨1⟩ [⟨['i']⟩])
        (Expr.Mul (Expr.Read ⟨2⟩ [⟨['i']⟩]) (Expr.Read ⟨1⟩ [⟨['i']⟩]))) ∧
      TensorBase.mk 2 ∈ getOperands (Expr.Add (Expr.Read ⟨1⟩ [⟨['i']⟩])
        (Expr.Mul (Expr.Read ⟨2⟩ [⟨['i']⟩]) (Expr.Read ⟨1⟩ [⟨['i']⟩])))) ∧
    (getOperands (Expr.Add (Expr.Read ⟨1⟩ [⟨['i']⟩])
        (Expr.Mul (Expr.Read ⟨2⟩ [⟨['i']⟩]) (Expr.Read ⟨1⟩ [⟨['i']⟩])))).count ⟨1⟩ = 1 :=
  ⟨(getOperands_dedup_by_identity (fun _ => ['a']) _).1 ⟨1⟩ ⟨2⟩ (by decide) (by decide)
      (by decide) rfl,
    (getOperands_dedup_by_identity (fun _ => ['a']) _).2 ⟨1⟩ (by decide)⟩

/-- C4: printing the compute IR is the default. When the argument loop ends normally,
the compute IR is selected (`printCompute` after line 159) exactly when some argument
was taken as the `-c` option or no argument was taken as the `-a` option or as a
`-l=<var>` option; an argument is taken as `-c`, `-a`, `-l=` when it starts with these
characters. When `main` then returns 0, the compute IR is printed exactly in that case. -/
theorem compute_IR_is_default (split : Str → Str → List Str) (args : List Str)
    (st : MainState) (h : argLoop split args MainState.init = Step.next st) :
    ((applyDefault st).printCompute = true ↔
      ((∃ a ∈ args, a.take 2 = "-c".toList) ∨
        (¬ (∃ a ∈ args, a.take 2 = "-a".toList) ∧ ¬ (∃ a ∈ args, a.take 3 = "-l=".toList)))) ∧
    (∀ (parser : Parser) (prog : Str), (main split parser (prog :: args)).1 = 0 →
      ((∃ color, Event.printComputeIR color ∈ (main split parser (prog :: args)).2) ↔
        ((∃ a ∈ args, a.take 2 = "-c".toList) ∨
          (¬ (∃ a ∈ args, a.take 2 = "-a".toList) ∧
            ¬ (∃ a ∈ args, a.take 3 = "-l=".toList))))) := by
  have hsel : (applyDefault st).printCompute = true ↔
      ((∃ a ∈ args, a.take 2 = "-c".toList) ∨
        (¬ (∃ a ∈ args, a.take 2 = "-a".toList) ∧ ¬ (∃ a ∈ args, a.take 3 = "-l=".toList))) := by
    obtain ⟨f1, f2, f3, f4⟩ := argLoop_flags split args MainState.init st h
    rw [applyDefault_printCompute, f1, f2, f3, f4]
    simp [MainState.init]
  refine ⟨hsel, ?_⟩
  intro parser prog hcode
  by_cases hne : args = []
  · subst hne
    simp [main] at hcode
  · rw [main_eq_runCompiler split parser prog args st hne h] at hcode ⊢
    rw [runCompiler_printCompute parser _ hcode]
    exact hsel

/-- With the expression alone the compute IR is selected and printed. -/
theorem compute_IR_is_default_witness :
    ((applyDefault { MainState.init with exprStr := "a(i)=b(i)".toList }).printCompute = true ↔
      ((∃ a ∈ ["a(i)=b(i)".toList], a.take 2 = "-c".toList) ∨
        (¬ (∃ a ∈ ["a(i)=b(i)".toList], a.take 2 = "-a".toList) ∧
          ¬ (∃ a ∈ ["a(i)=b(i)".toList], a.take 3 = "-l=".toList)))) ∧
    (applyDefault { MainState.init with exprStr := "a(i)=b(i)".toList }).printCompute = true :=
  ⟨(compute_IR_is_default sampleSplit ["a(i)=b(i)".toList]
      { MainState.init with exprStr := "a(i)=b(i)".toList } (by decide)).1, by decide⟩

/-- C3: when an argument starts with `-f=` and its remainder does not split on `:` into
exactly two parts, or its format part has a character other than `d` and `s`, and no
earlier argument ended the run, `main` returns 3 after the error message "Incorrect
format descriptor" and the usage text, without parsing or compiling, and the formats
recorded at that moment are those recorded before this argument. -/
theorem main_rejects_bad_format_descriptor (split : Str → Str → List Str) (parser : Parser)
    (prog : Str) (pre post : List Str) (arg : Str) (st : MainState)
    (hpre : argLoop split pre MainState.init = Step.next st)
    (hf : arg.take 3 = "-f=".toList)
    (hbad : (split (arg.drop 3) ":".toList).length ≠ 2 ∨
      ∃ name fmt, split (arg.drop 3) ":".toList = [name, fmt] ∧ ∃ c ∈ fmt, c ≠ 'd' ∧ c ≠ 's') :
    main split parser (prog :: (pre ++ arg :: post)) =
      (3, [Event.error "Incorrect format descriptor".toList, Event.usage]) ∧
    argLoop split (pre ++ arg :: post) MainState.init =
      Step.halt 3 [Event.error "Incorrect format descriptor".toList, Event.usage] st ∧
    (∀ ev ∈ (main split parser (prog :: (pre ++ arg :: post))).2,
      ev ≠ Event.compile ∧ ∀ exprStr formats, ev ≠ Event.parse exprStr formats) := by
  have hstep : processArg split st arg =
      Step.halt 3 [Event.error "Incorrect format descriptor".toList, Event.usage] st := by
    unfold processArg
    rw [if_pos hf.symm]
    rcases hbad with hlen | ⟨name, fmt, hsp, hc⟩
    · split
      · rename_i heq
        rw [heq] at hlen
        simp at hlen
      · rfl
    · rw [hsp]
      simp only
      rw [formatLoop_bad fmt 0 [] [] hc]
      rfl
  have hloop : argLoop split (pre ++ arg :: post) MainState.init =
      Step.halt 3 [Event.error "Incorrect format descriptor".toList, Event.usage] st := by
    rw [argLoop_append split pre (arg :: post) MainState.init st hpre]
    simp only [argLoop, hstep]
  have hmain : main split parser (prog :: (pre ++ arg :: post)) =
      (3, [Event.error "Incorrect format descriptor".toList, Event.usage]) := by
    unfold main
    have hlen : ¬ (prog :: (pre ++ arg :: post)).length < 2 := by
      simp only [List.length_cons, List.length_append]
      omega
    rw [if_neg hlen]
    simp only [List.drop_succ_cons, List.drop_zero, hloop]
  refine ⟨hmain, hloop, ?_⟩
  rw [hmain]
  intro ev hev
  simp only [List.mem_cons, List.mem_singleton, List.not_mem_nil, or_false] at hev
  rcases hev with h | h <;> subst h <;> simp

/-- The run `taco "a(i)=b(i)" -f=b:x -f=c:s` stops at `-f=b:x` with code 3. -/
theorem main_rejects_bad_format_descriptor_witness :
    main sampleSplit sampleParser
        ("taco".toList :: (["a(i)=b(i)".toList] ++ "-f=b:x".toList :: ["-f=c:s".toList])) =
      (3, [Event.error "Incorrect format descriptor".toList, Event.usage]) :=
  (main_rejects_bad_format_descriptor sampleSplit sampleParser "taco".toList
    ["a(i)=b(i)".toList] ["-f=c:s".toList] "-f=b:x".toList
    { MainState.init with exprStr := "a(i)=b(i)".toList } (by decide) (by decide)
    (Or.inr ⟨"b".toList, "x".toList, by decide, 'x', by decide, by decide, by decide⟩)).1

/-- C2 as stated fails. In the run `taco -f=A:d -f=A:s` the second argument has the
form `-f=<name>:<fmt>` with `<fmt>` made of `d` and `s`, the argument loop ends
normally, and the only format recorded for `A` is the one of the first argument, with
Dense where the second argument asks for Sparse. In the run `taco x y -f=A:d` the
second expression ends the run with code 2 before `-f=A:d` is read, and no format
is recorded. -/
theorem main_records_format_counterexample :
    (sampleSplit ("-f=A:s".toList.drop 3) ":".toList = ["A".toList, "s".toList] ∧
      argLoop sampleSplit ["-f=A:d".toList, "-f=A:s".toList] MainState.init =
        Step.next { MainState.init with
          formats := [("A".toList, ⟨[LevelType.Dense], [0]⟩)] } ∧
      ¬ ∃ st f, argLoop sampleSplit ["-f=A:d".toList, "-f=A:s".toList] MainState.init =
          Step.next st ∧ mapFind st.formats "A".toList = some f ∧
          f.levelTypes = [LevelType.Sparse]) ∧
    (argLoop sampleSplit ["x".toList, "y".toList, "-f=A:d".toList] MainState.init =
        Step.halt 2 [Event.usage] { MainState.init with exprStr := "x".toList } ∧
      main sampleSplit sampleParser
        ["taco".toList, "x".toList, "y".toList, "-f=A:d".toList] = (2, [Event.usage])) := by
  have hrun : argLoop sampleSplit ["-f=A:d".toList, "-f=A:s".toList] MainState.init =
      Step.next { MainState.init with
        formats := [("A".toList, ⟨[LevelType.Dense], [0]⟩)] } := by decide
  refine ⟨⟨by decide, hrun, ?_⟩, by decide, by decide⟩
  rintro ⟨st, f, h1, h2, h3⟩
  rw [hrun] at h1
  simp only [Step.next.injEq] at h1
  subst h1
  have hfind : mapFind [("A".toList, (⟨[LevelType.Dense], [0]⟩ : Format))] "A".toList =
      some ⟨[LevelType.Dense], [0]⟩ := by decide
  simp only [MainState.init] at h2
  rw [hfind] at h2
  simp only [Option.some.injEq] at h2
  subst h2
  simp at h3

/-- C2, amended: when `main` reaches an argument `-f=<name>:<fmt>` (no earlier argument
ended the run) whose `<fmt>` consists only of `d` and `s`, and no format is recorded
for `<name>` yet, it records for `<name>` a Format whose level types have the length of
`<fmt>`, Dense where `<fmt>` has `d` and Sparse where it has `s`, and whose dimension
order is 0, 1, ..., length-1; the record is still there when the argument loop ends. -/
theorem main_records_format (split : Str → Str → List Str) (pre post : List Str)
    (arg name fmt : Str) (st : MainState)
    (hpre : argLoop split pre MainState.init = Step.next st)
    (hf : arg.take 3 = "-f=".toList)
    (hsplit : split (arg.drop 3) ":".toList = [name, fmt])
    (hfmt : ∀ c ∈ fmt, c = 'd' ∨ c = 's')
    (hfresh : mapFind st.formats name = none) :
    ∃ f : Format,
      (∃ st1, argLoop split (pre ++ [arg]) MainState.init = Step.next st1 ∧
        mapFind st1.formats name = some f) ∧
      (∀ st2, argLoop split (pre ++ arg :: post) MainState.init = Step.next st2 →
        mapFind st2.formats name = some f) ∧
      f.levelTypes.length = fmt.length ∧
      (∀ (k : Nat) (hk : k < fmt.length),
        (fmt[k] = 'd' → f.levelTypes[k]? = some LevelType.Dense) ∧
        (fmt[k] = 's' → f.levelTypes[k]? = some LevelType.Sparse)) ∧
      f.dimensionOrder = List.range fmt.length := by
  have hstep : processArg split st arg = Step.next
      { st with formats := mapInsert st.formats name ⟨fmt.map levelTypeOf, List.range fmt.length⟩ } := by
    unfold processArg
    rw [if_pos hf.symm, hsplit]
    simp only
    rw [formatLoop_ok fmt 0 [] [] hfmt]
    simp only [List.nil_append, ← List.range_eq_range']
  have hfound := mapFind_mapInsert_self st.formats name
    ⟨fmt.map levelTypeOf, List.range fmt.length⟩ hfresh
  refine ⟨⟨fmt.map levelTypeOf, List.range fmt.length⟩,
    ⟨{ st with formats := (mapInsert st.formats name
        ⟨fmt.map levelTypeOf, List.range fmt.length⟩) }, ?_, hfound⟩, ?_, ?_, ?_, rfl⟩
  · rw [argLoop_append split pre [arg] MainState.init st hpre]
    simp only [argLoop, hstep]
  · intro st2 h2
    rw [argLoop_append split pre (arg :: post) MainState.init st hpre] at h2
    simp only [argLoop, hstep] at h2
    exact argLoop_keeps split post name _ _ st2 h2 hfound
  · simp
  · intro k hk
    have hget : (fmt.map levelTypeOf)[k]? = some (levelTypeOf fmt[k]) := by
      simp [List.getElem?_map, List.getElem?_eq_getElem hk]
    constructor
    · intro hd
      simp only [hget, hd]
      rfl
    · intro hs
      simp only [hget, hs]
      rfl

/-- The run `taco "a(i)=B(i,j)" -f=B:ds -c` records Dense, Sparse with order 0, 1 for `B`. -/
theorem main_records_format_witness :
    ∃ f : Format,
      (∃ st1, argLoop sampleSplit (["a(i)=B(i,j)".toList] ++ ["-f=B:ds".toList])
          MainState.init = Step.next st1 ∧ mapFind st1.formats "B".toList = some f) ∧
      (∀ st2, argLoop sampleSplit (["a(i)=B(i,j)".toList] ++ "-f=B:ds".toList :: ["-c".toList])
          MainState.init = Step.next st2 → mapFind st2.formats "B".toList = some f) ∧
      f.levelTypes.length = "ds".toList.length ∧
      (∀ (k : Nat) (hk : k < "ds".toList.length),
        ("ds".toList[k] = 'd' → f.levelTypes[k]? = some LevelType.Dense) ∧
        ("ds".toList[k] = 's' → f.levelTypes[k]? = some LevelType.Sparse)) ∧
      f.dimensionOrder = List.range "ds".toList.length :=
  main_records_format sampleSplit ["a(i)=B(i,j)".toList] ["-c".toList] "-f=B:ds".toList
    "B".toList "ds".toList { MainState.init with exprStr := "a(i)=B(i,j)".toList }
    (by decide) (by decide) (by decide) (by decide) (by decide)

/-! ### Lemmas on the schedule -/

theorem distinct_mem {α : Type} [DecidableEq α] (l : List α) : ∀ x, x ∈ distinct l ↔ x ∈ l := by
  induction l with
  | nil => intro x; simp [distinct]
  | cons y ys ih =>
    intro x
    simp only [distinct, List.mem_cons, List.mem_filter, ih, decide_eq_true_eq]
    by_cases hxy : x = y
    · simp [hxy]
    · simp [hxy]

theorem distinct_nodup {α : Type} [DecidableEq α] (l : List α) : (distinct l).Nodup := by
  induction l with
  | nil => simp [distinct]
  | cons y ys ih =>
    simp only [distinct, List.nodup_cons, List.mem_filter, decide_eq_true_eq]
    exact ⟨fun h => h.2 rfl, ih.filter _⟩

theorem orderedPairs_of_lt (l : List Var) :
    ∀ (i j : Nat) (a b : Var), i < j → l[i]? = some a → l[j]? = some b →
      (a, b) ∈ orderedPairs l := by
  induction l with
  | nil => intro i j a b _ ha; simp at ha
  | cons x xs ih =>
    intro i j a b hij ha hb
    simp only [orderedPairs, List.mem_append, List.mem_map]
    cases j with
    | zero => omega
    | succ j =>
      simp only [List.getElem?_cons_succ] at hb
      cases i with
      | zero =>
        simp only [List.getElem?_cons_zero, Option.some.injEq] at ha
        subst ha
        exact Or.inl ⟨b, List.getElem?_mem hb, rfl⟩
      | succ i =>
        simp only [List.getElem?_cons_succ] at ha
        exact Or.inr (ih i j a b (by omega) ha hb)

theorem levelVars_subset (f : Format) (indexVars : List Var) (a : Var)
    (h : a ∈ levelVars f indexVars) : a ∈ indexVars := by
  unfold levelVars at h
  rw [List.mem_filterMap] at h
  obtain ⟨d, _, hd⟩ := h
  exact List.getElem?_mem hd

theorem topoSort_sound (edges : List (Var × Var)) :
    ∀ (n : Nat) (remaining order : List Var), remaining.Nodup →
      topoSort edges n remaining = some order →
      (∀ v, v ∈ order ↔ v ∈ remaining) ∧ order.Nodup ∧
      (∀ a b, (a, b) ∈ edges → a ∈ remaining → b ∈ remaining →
        List.indexOf a order < List.indexOf b order) := by
  intro n
  induction n with
  | zero =>
    intro remaining order _ h
    cases remaining with
    | nil =>
      simp only [topoSort, Option.some.injEq] at h
      subst h
      simp
    | cons v0 rest => simp [topoSort] at h
  | succ n ih =>
    intro remaining order hnd h
    cases remaining with
    | nil =>
      simp only [topoSort, Option.some.injEq] at h
      subst h
      simp
    | cons v0 rest =>
      simp only [topoSort] at h
      cases hfind : (v0 :: rest).find? (fun v => !(hasPredecessor edges (v0 :: rest) v)) with
      | none => rw [hfind] at h; simp at h
      | some v =>
        rw [hfind] at h
        simp only [Option.map_eq_some'] at h
        obtain ⟨order', hrec, hout⟩ := h
        subst hout
        have hvmem : v ∈ v0 :: rest := List.mem_of_find?_eq_some hfind
        have hready : hasPredecessor edges (v0 :: rest) v = false := by
          have := List.find?_some hfind
          simpa using this
        obtain ⟨hmem, hnodup, hord⟩ := ih ((v0 :: rest).erase v) order' (hnd.erase v) hrec
        have hmem' : ∀ x, x ∈ order' ↔ x ≠ v ∧ x ∈ v0 :: rest := by
          intro x
          rw [hmem x, hnd.mem_erase_iff]
        refine ⟨?_, ?_, ?_⟩
        · intro x
          rw [List.mem_cons, hmem']
          constructor
          · rintro (hx | hx)
            · rw [hx]; exact hvmem
            · exact hx.2
          · intro hx
            by_cases hxv : x = v
            · exact Or.inl hxv
            · exact Or.inr ⟨hxv, hx⟩
        · rw [List.nodup_cons]
          refine ⟨?_, hnodup⟩
          intro hv
          exact ((hmem' v).1 hv).1 rfl
        · intro a b hab ha hb
          have hbv : b ≠ v := by
            intro hbv
            subst hbv
            have : hasPredecessor edges (v0 :: rest) b = true := by
              unfold hasPredecessor
              rw [List.any_eq_true]
              exact ⟨a, ha, by simpa using hab⟩
            rw [hready] at this
            exact Bool.false_ne_true this
          by_cases hav : a = v
          · subst hav
            rw [List.indexOf_cons_self, List.indexOf_cons_ne _ (Ne.symm hbv)]
            omega
          · rw [List.indexOf_cons_ne _ (Ne.symm hav), List.indexOf_cons_ne _ (Ne.symm hbv)]
            have := hord a b hab ((hnd.mem_erase_iff).2 ⟨hav, ha⟩) ((hnd.mem_erase_iff).2 ⟨hbv, hb⟩)
            omega

theorem topoSort_none_cycle (edges : List (Var × Var)) :
    ∀ (n : Nat) (remaining : List Var), remaining.length ≤ n →
      topoSort edges n remaining = none →
      ∃ cyc : List Var, cyc ≠ [] ∧ (∀ v ∈ cyc, v ∈ remaining) ∧
        ∀ v ∈ cyc, hasPredecessor edges cyc v = true := by
  intro n
  induction n with
  | zero =>
    intro remaining hlen h
    cases remaining with
    | nil => simp [topoSort] at h
    | cons v0 rest => simp at hlen
  | succ n ih =>
    intro remaining hlen h
    cases remaining with
    | nil => simp [topoSort] at h
    | cons v0 rest =>
      simp only [topoSort] at h
      cases hfind : (v0 :: rest).find? (fun v => !(hasPredecessor edges (v0 :: rest) v)) with
      | none =>
        refine ⟨v0 :: rest, by simp, fun v hv => hv, ?_⟩
        intro v hv
        have := List.find?_eq_none.1 hfind v hv
        simpa using this
      | some v =>
        rw [hfind] at h
        simp only [Option.map_eq_none'] at h
        have hvmem : v ∈ v0 :: rest := List.mem_of_find?_eq_some hfind
        have hlen' : ((v0 :: rest).erase v).length ≤ n := by
          rw [List.length_erase_of_mem hvmem]
          simp only [List.length_cons] at hlen ⊢
          omega
        obtain ⟨cyc, hne, hsub, hcyc⟩ := ih _ hlen' h
        exact ⟨cyc, hne, fun x hx => List.mem_of_mem_erase (hsub x hx), hcyc⟩

/-- C6: for every expression and every assignment of formats to its tensors for which a
schedule is produced, the schedule's order is a linear extension of each operand's
own order: whenever the format of an operand `T` places index variable `a` (at level
`i`) before index variable `b` (at level `j`, `i < j`), both are in the schedule and
`a` comes before `b`. -/
theorem schedule_is_linear_extension (formatOf : TensorBase → Format) (e : Expr)
    (s : IterationSchedule) (h : IterationSchedule.make formatOf e = some s) :
    ∀ (T : TensorBase) (indexVars : List Var), (T, indexVars) ∈ reads e →
      ∀ (i j : Nat) (a b : Var), i < j →
        (levelVars (formatOf T) indexVars)[i]? = some a →
        (levelVars (formatOf T) indexVars)[j]? = some b →
        a ∈ s.order ∧ b ∈ s.order ∧ List.indexOf a s.order < List.indexOf b s.order := by
  intro T indexVars hread i j a b hij hai hbj
  unfold IterationSchedule.make at h
  simp only [Option.map_eq_some'] at h
  obtain ⟨order, htopo, hs⟩ := h
  subst hs
  simp only
  obtain ⟨hmem, _, hord⟩ := topoSort_sound (beforeEdges formatOf e) _ _ order
    (distinct_nodup _) htopo
  have hused : ∀ x, x ∈ levelVars (formatOf T) indexVars → x ∈ indexVarsOf e := by
    intro x hx
    unfold indexVarsOf
    rw [distinct_mem, List.mem_flatMap]
    exact ⟨(T, indexVars), hread, levelVars_subset _ _ _ hx⟩
  have ha : a ∈ indexVarsOf e := hused a (List.getElem?_mem hai)
  have hb : b ∈ indexVarsOf e := hused b (List.getElem?_mem hbj)
  have hedge : (a, b) ∈ beforeEdges formatOf e := by
    unfold beforeEdges
    rw [List.mem_flatMap]
    exact ⟨(T, indexVars), hread, orderedPairs_of_lt _ i j a b hij hai hbj⟩
  exact ⟨(hmem a).2 ha, (hmem b).2 hb, hord a b hedge ha hb⟩

/-- The expression `B(i,j) * c(i)` with `B` stored column-major (level order `j`, `i`):
the schedule is `j`, `i`. -/
theorem schedule_is_linear_extension_witness :
    (⟨['j']⟩ : Var) ∈ [(⟨['j']⟩ : Var), ⟨['i']⟩] ∧ (⟨['i']⟩ : Var) ∈ [(⟨['j']⟩ : Var), ⟨['i']⟩] ∧
      List.indexOf (⟨['j']⟩ : Var) [(⟨['j']⟩ : Var), ⟨['i']⟩] <
        List.indexOf (⟨['i']⟩ : Var) [(⟨['j']⟩ : Var), ⟨['i']⟩] :=
  schedule_is_linear_extension
    (fun t => if t = ⟨1⟩ then ⟨[LevelType.Dense, LevelType.Sparse], [1, 0]⟩
      else ⟨[LevelType.Dense], [0]⟩)
    (Expr.Mul (Expr.Read ⟨1⟩ [⟨['i']⟩, ⟨['j']⟩]) (Expr.Read ⟨2⟩ [⟨['i']⟩]))
    ⟨[⟨['j']⟩, ⟨['i']⟩], bindingsOf
      (fun t => if t = ⟨1⟩ then ⟨[LevelType.Dense, LevelType.Sparse], [1, 0]⟩
        else ⟨[LevelType.Dense], [0]⟩)
      (Expr.Mul (Expr.Read ⟨1⟩ [⟨['i']⟩, ⟨['j']⟩]) (Expr.Read ⟨2⟩ [⟨['i']⟩]))⟩
    (by decide) ⟨1⟩ [⟨['i']⟩, ⟨['j']⟩] (by decide) 0 1 ⟨['j']⟩ ⟨['i']⟩ (by decide)
    (by decide) (by decide)

/-- C7: for the addition `a(i) + b(i)` of two sparse vectors the schedule is produced and
the merge lattice built for `i` consists of exactly three points, in the order
{iterator(a), iterator(b)}, {iterator(a)}, {iterator(b)}, with the sub-expressions
`a(i) + b(i)`, `a(i)`, `b(i)`; no point is discarded. -/
theorem merge_lattice_sparse_vector_add (formatOf : TensorBase → Format) (a b : TensorBase)
    (i : Var) (hab : a ≠ b)
    (ha : formatOf a = ⟨[LevelType.Sparse], [0]⟩)
    (hb : formatOf b = ⟨[LevelType.Sparse], [0]⟩) :
    ∃ s, IterationSchedule.make formatOf (Expr.Add (Expr.Read a [i]) (Expr.Read b [i])) = some s ∧
      MergeLattice.make (Expr.Add (Expr.Read a [i]) (Expr.Read b [i])) i s =
        some [⟨[⟨a, 0, LevelType.Sparse⟩, ⟨b, 0, LevelType.Sparse⟩],
            some (Expr.Add (Expr.Read a [i]) (Expr.Read b [i]))⟩,
          ⟨[⟨a, 0, LevelType.Sparse⟩], some (Expr.Read a [i])⟩,
          ⟨[⟨b, 0, LevelType.Sparse⟩], some (Expr.Read b [i])⟩] := by
  have hba : b ≠ a := Ne.symm hab
  have hsched : IterationSchedule.make formatOf (Expr.Add (Expr.Read a [i]) (Expr.Read b [i])) =
      some ⟨[i], [((a, i), ⟨a, 0, LevelType.Sparse⟩), ((b, i), ⟨b, 0, LevelType.Sparse⟩)]⟩ := by
    simp [IterationSchedule.make, indexVarsOf, reads, distinct, beforeEdges, levelVars,
      orderedPairs, topoSort, hasPredecessor, bindingsOf, bindIterator, ha, hb]
  refine ⟨_, hsched, ?_⟩
  have hne : (⟨a, 0, LevelType.Sparse⟩ : Iterator) ≠ ⟨b, 0, LevelType.Sparse⟩ := by
    intro h
    exact hab (congrArg Iterator.tensor h)
  have hne' : (⟨b, 0, LevelType.Sparse⟩ : Iterator) ≠ ⟨a, 0, LevelType.Sparse⟩ := Ne.symm hne
  have hrestrict : restrictTo i (Expr.Add (Expr.Read a [i]) (Expr.Read b [i])) =
      some (Expr.Add (Expr.Read a [i]) (Expr.Read b [i])) := by
    simp [restrictTo]
  have hactive : distinct ((reads (Expr.Add (Expr.Read a [i]) (Expr.Read b [i]))).filterMap
      (fun r => IterationSchedule.iteratorFor
        ⟨[i], [((a, i), ⟨a, 0, LevelType.Sparse⟩), ((b, i), ⟨b, 0, LevelType.Sparse⟩)]⟩ r.1 i)) =
      [⟨a, 0, LevelType.Sparse⟩, ⟨b, 0, LevelType.Sparse⟩] := by
    have hbeq : ((b, i) == (a, i)) = false := by simp [hba]
    have hfa : IterationSchedule.iteratorFor
        ⟨[i], [((a, i), ⟨a, 0, LevelType.Sparse⟩), ((b, i), ⟨b, 0, LevelType.Sparse⟩)]⟩ a i =
        some ⟨a, 0, LevelType.Sparse⟩ := by
      simp [IterationSchedule.iteratorFor, List.lookup]
    have hfb : IterationSchedule.iteratorFor
        ⟨[i], [((a, i), ⟨a, 0, LevelType.Sparse⟩), ((b, i), ⟨b, 0, LevelType.Sparse⟩)]⟩ b i =
        some ⟨b, 0, LevelType.Sparse⟩ := by
      simp [IterationSchedule.iteratorFor, List.lookup, hbeq]
    simp only [reads, List.singleton_append, List.filterMap_cons, hfa, hfb, List.filterMap_nil,
      distinct, List.filter_nil]
    simp [hne']
  have hdescend : descend 2 ⟨[⟨a, 0, LevelType.Sparse⟩, ⟨b, 0, LevelType.Sparse⟩],
      some (Expr.Add (Expr.Read a [i]) (Expr.Read b [i]))⟩ =
      [⟨[⟨a, 0, LevelType.Sparse⟩, ⟨b, 0, LevelType.Sparse⟩],
          some (Expr.Add (Expr.Read a [i]) (Expr.Read b [i]))⟩,
        ⟨[⟨b, 0, LevelType.Sparse⟩], some (Expr.Read b [i])⟩,
        ⟨[], none⟩,
        ⟨[⟨a, 0, LevelType.Sparse⟩], some (Expr.Read a [i])⟩,
        ⟨[], none⟩] := by
    simp [descend, children, dropIterator, hab, hba, hne']
  unfold MergeLattice.make
  rw [hrestrict]
  simp only [hactive]
  rw [if_neg (by simp)]
  simp only [List.length_cons, List.length_nil, Nat.zero_add, Nat.reduceAdd, hdescend]
  simp [dedupPoints, orderPoints, insertPoint, moreSpecific, lexLe, hab, hba, hne, hne',
    List.indexOf_cons_ne]

/-- The vectors `1` and `2`, both sparse, read at `i`. -/
theorem merge_lattice_sparse_vector_add_witness :
    ∃ s, IterationSchedule.make (fun _ => ⟨[LevelType.Sparse], [0]⟩)
        (Expr.Add (Expr.Read ⟨1⟩ [⟨['i']⟩]) (Expr.Read ⟨2⟩ [⟨['i']⟩])) = some s ∧
      MergeLattice.make (Expr.Add (Expr.Read ⟨1⟩ [⟨['i']⟩]) (Expr.Read ⟨2⟩ [⟨['i']⟩])) ⟨['i']⟩ s =
        some [⟨[⟨⟨1⟩, 0, LevelType.Sparse⟩, ⟨⟨2⟩, 0, LevelType.Sparse⟩],
            some (Expr.Add (Expr.Read ⟨1⟩ [⟨['i']⟩]) (Expr.Read ⟨2⟩ [⟨['i']⟩]))⟩,
          ⟨[⟨⟨1⟩, 0, LevelType.Sparse⟩], some (Expr.Read ⟨1⟩ [⟨['i']⟩])⟩,
          ⟨[⟨⟨2⟩, 0, LevelType.Sparse⟩], some (Expr.Read ⟨2⟩ [⟨['i']⟩])⟩] :=
  merge_lattice_sparse_vector_add (fun _ => ⟨[LevelType.Sparse], [0]⟩) ⟨1⟩ ⟨2⟩ ⟨['i']⟩
    (by decide) rfl rfl

/-! ## Sample runs -/

/-- The run `taco "a(i)=b(i)" -f=b:s`: the format of `b` reaches the parser, the tensor
is compiled and the compute IR is printed. -/
theorem main_sample_run :
    main sampleSplit sampleParser ["taco".toList, "a(i)=b(i)".toList, "-f=b:s".toList] =
      (0, [Event.parse "a(i)=b(i)".toList [("b".toList, ⟨[LevelType.Sparse], [0]⟩)],
        Event.compile, Event.printComputeIR true, Event.endl]) := by decide

/-- The run `taco "a(i)=b(i)" -a -l=j`: the index variable `j` is unknown to the sample
parser, so `main` returns 4 after parsing and before compiling. -/
theorem main_sample_run_unknown_index_var :
    main sampleSplit sampleParser
        ["taco".toList, "a(i)=b(i)".toList, "-a".toList, "-l=j".toList] =
      (4, [Event.parse "a(i)=b(i)".toList [],
        Event.error "Index variable is not in expression".toList, Event.usage]) := by decide

/-- The merge lattice of the product `a(i) * b(i)` of two sparse vectors has the single
point {iterator(a), iterator(b)}. -/
theorem merge_lattice_sparse_vector_mul_eval :
    MergeLattice.make (Expr.Mul (Expr.Read ⟨1⟩ [⟨['i']⟩]) (Expr.Read ⟨2⟩ [⟨['i']⟩])) ⟨['i']⟩
        ⟨[⟨['i']⟩], [((⟨1⟩, ⟨['i']⟩), ⟨⟨1⟩, 0, LevelType.Sparse⟩),
          ((⟨2⟩, ⟨['i']⟩), ⟨⟨2⟩, 0, LevelType.Sparse⟩)]⟩ =
      some [⟨[⟨⟨1⟩, 0, LevelType.Sparse⟩, ⟨⟨2⟩, 0, LevelType.Sparse⟩],
        some (Expr.Mul (Expr.Read ⟨1⟩ [⟨['i']⟩]) (Expr.Read ⟨2⟩ [⟨['i']⟩]))⟩] := by decide

/-- Two reads with opposite level orders on `i` and `j` have no schedule. -/
theorem schedule_cycle_eval :
    IterationSchedule.make
        (fun t => if t = ⟨1⟩ then ⟨[LevelType.Dense, LevelType.Dense], [0, 1]⟩
          else ⟨[LevelType.Dense, LevelType.Dense], [1, 0]⟩)
        (Expr.Add (Expr.Read ⟨1⟩ [⟨['i']⟩, ⟨['j']⟩]) (Expr.Read ⟨2⟩ [⟨['i']⟩, ⟨['j']⟩])) =
      none := by decide

end Taco
